import Mathlib

/-!
# Markov chain engine of `pkg/markov/markov.go`

A shallow embedding of the transition table engine: the sliding window
(`Prefix`), training (`AddChain`), generation (`GenerateChain`) and the
snapshot codec (`ReadState`, `WriteState`, `RunStateSaveTicker`).

Modelling conventions.

* Go strings are modelled by Lean strings, that is by sequences of Unicode
  scalar values. `fmt.Fscan` reads runes and turns every byte that is not valid
  UTF-8 into U+FFFD, so every token it returns is of this kind.
* A run time panic (slice bounds, negative `make`, assignment into a nil map)
  is the result `none`.
* A Go map is a finite partial function; it is represented by its entries
  listed in strictly increasing key order (`Table.WF`), which makes equal maps
  equal lists. A nil map is `none`. A nil slice and an empty slice are both
  the empty list: the code observes a successor list only through `len`,
  indexing and `append`.
* The packages `fmt`, `strings`, `encoding/json`, `compress/gzip` and `os` are
  modelled after their documented behaviour, at the interface the code uses.
* The mutex and the logger carry no data of the table and are left out of the
  state; the order of lock and map events is modelled separately at the end.
-/

set_option linter.dupNamespace false

namespace Markov

/-! ## Window key -/

/-- Source: `type Prefix []string`. -/
abbrev Prefix := List String

/-- Source: `strings.Join(elems, sep)`: the elements separated by `sep`. -/
def Join : List String → String → String
  | [], _ => ""
  | [a], _ => a
  | a :: b :: rest, sep => a ++ sep ++ Join (b :: rest) sep

/-- The Go builtin `copy(dst, src)`: the first `min (len dst) (len src)`
elements of `dst` are overwritten with those of `src`. -/
def copy (dst src : List String) : List String :=
  src.take dst.length ++ dst.drop src.length

/-- Source: `func (p Prefix) Shift(word string)`:
`copy(p, p[1:]); p[len(p)-1] = word`. The slice expression `p[1:]` panics
when `len(p) = 0`. -/
def Prefix.Shift (p : Prefix) (word : String) : Option Prefix :=
  if 1 ≤ p.length then
    some ((copy p (p.drop 1)).set (p.length - 1) word)
  else
    none

/-- Source: `func (p Prefix) String() string`, `strings.Join(p, " ")`. -/
def Prefix.String (p : Prefix) : String := Join p " "

/-- The Go builtin `make(Prefix, n)`: `n` empty strings, a panic when `n < 0`. -/
def makePrefix (n : Int) : Option Prefix :=
  if n < 0 then none else some (List.replicate n.toNat "")

/-! ## Transition table -/

/-- Lexicographic comparison of two rune sequences by code point, which is the
order of Go's `<` on strings (bytewise on UTF-8). -/
def ltChars : List Char → List Char → Bool
  | _, [] => false
  | [], _ :: _ => true
  | a :: as, b :: bs =>
    if a < b then true else if a = b then ltChars as bs else false

/-- Go's `a < b` on strings. -/
def keyLt (a b : String) : Bool := ltChars a.data b.data

/-- A value of Go type `map[string][]string` that is not nil, as the list of its
entries. Lookup and store are defined on every list; a list stands for a map
when it is well formed (`Table.WF`). -/
abbrev Table := List (String × List String)

/-- Lookup of a key: the value of the first entry with that key. -/
def Table.get : Table → String → Option (List String)
  | [], _ => none
  | (k', v') :: rest, k => if k = k' then some v' else Table.get rest k

/-- Store of a value under a key: the entry of that key is replaced, a new key
is entered at its place in the key order. -/
def Table.set : Table → String → List String → Table
  | [], k, v => [(k, v)]
  | (k', v') :: rest, k, v =>
    if k = k' then (k, v) :: rest
    else if keyLt k k' then (k, v) :: (k', v') :: rest
    else (k', v') :: Table.set rest k v

/-- The keys of the entries, in order. -/
def Table.keys (t : Table) : List String := t.map Prod.fst

/-- Well formed entries: strictly increasing keys, hence no key twice. -/
def Table.WF (t : Table) : Prop := t.keys.Pairwise (fun a b => keyLt a b = true)

instance Table.decidableWF (t : Table) : Decidable t.WF :=
  inferInstanceAs (Decidable (t.keys.Pairwise (fun a b => keyLt a b = true)))

/-- The number of successor entries held by a table, over all keys. -/
def Table.total (t : Table) : Nat := (t.map (fun kv => kv.2.length)).sum

/-- Source: `type Chain struct`, its fields `Chain map[string][]string` and
`prefixLen int`. The field `Chain` is `none` for a nil map. -/
structure Chain where
  Chain : Option Table
  prefixLen : Int
deriving DecidableEq

/-- Source: `NewChain(prefixLen, logger)`: an allocated, empty map. -/
def NewChain (prefixLen : Int) : Chain := ⟨some [], prefixLen⟩

/-- The Go map read `m[k]`: the stored list, the nil slice for an absent key
and for a nil map. -/
def mapIndex (m : Option Table) (k : String) : List String :=
  match m with
  | none => []
  | some t => (t.get k).getD []

/-- The Go map write `m[k] = v`: a panic (`none`) on a nil map. -/
def mapAssign (m : Option Table) (k : String) (v : List String) : Option Table :=
  match m with
  | none => none
  | some t => some (t.set k v)

/-! ## Tokens: `fmt.Fscan(sr, &s)` -/

/-- Source (package `fmt`): `isSpace`, the ranges of the table `space`. -/
def isSpace (r : Char) : Bool :=
  let n := r.toNat
  (0x0009 ≤ n && n ≤ 0x000d) || n == 0x0020 || n == 0x0085 || n == 0x00a0 ||
  n == 0x1680 || (0x2000 ≤ n && n ≤ 0x200a) || (0x2028 ≤ n && n ≤ 0x2029) ||
  n == 0x202f || n == 0x205f || n == 0x3000

/-- Source: `fmt.Fscan(sr, &s)` on what is left of the reader: leading space
(newlines included) is skipped, then the runes up to the next space are the
token. `none` is the error at the end of the input; otherwise the token and the
rest of the reader. -/
def Fscan (rd : List Char) : Option (String × List Char) :=
  match rd.dropWhile isSpace with
  | [] => none
  | r :: rs =>
    some (String.mk ((r :: rs).takeWhile (fun x => !isSpace x)),
          (r :: rs).dropWhile (fun x => !isSpace x))

/-- The tokens of a reader: what successive calls of `Fscan` return until the
first error. The first argument bounds the number of calls. -/
def scanAll : Nat → List Char → List String
  | 0, _ => []
  | fuel + 1, rd =>
    match Fscan rd with
    | none => []
    | some (s, rest) => s :: scanAll fuel rest

/-- The whitespace separated tokens of a text. Every call of `Fscan` that
succeeds consumes a rune, so one call more than the text has runes reaches the
end, and a larger bound gives the same tokens (`scanAll_fuel`). -/
def tokens (input : String) : List String := scanAll (input.length + 1) input.data

/-! ## Training -/

/-- Source: the loop of `AddChain`. Each pass scans a token `s`, and on
success does `key := p.String(); c.Chain[key] = append(c.Chain[key], s);
p.Shift(s)`; the first scan error leaves the loop. The first argument bounds
the number of passes; `none` is a panic, or the bound reached. -/
def addLoop : Nat → List Char → Prefix → Chain → Option Chain
  | 0, _, _, _ => none
  | fuel + 1, rd, p, c =>
    match Fscan rd with
    | none => some c
    | some (s, rest) =>
      let key := p.String
      match mapAssign c.Chain key (mapIndex c.Chain key ++ [s]) with
      | none => none
      | some m =>
        match p.Shift s with
        | none => none
        | some p' => addLoop fuel rest p' ⟨some m, c.prefixLen⟩

/-- Source: `func (c *Chain) AddChain(in string) (int, error)`. The result is
the chain after the call with the returned `len(in)`; the returned error is
always nil. `none` is a panic. -/
def AddChain (c : Chain) (input : String) : Option (Chain × Nat) :=
  match makePrefix c.prefixLen with
  | none => none
  | some p =>
    match addLoop (input.length + 1) input.data p c with
    | none => none
    | some c' => some (c', input.utf8ByteSize)

/-- Training on several texts, one call of `AddChain` after the other. -/
def trainAll : Chain → List String → Option Chain
  | c, [] => some c
  | c, t :: ts =>
    match AddChain c t with
    | none => none
    | some (c', _) => trainAll c' ts

/-! ## Generation -/

/-- Source: the loop of `GenerateChain`, `for i := 0; i < n; i++`, with
`remaining = n - i` passes to go. `rnd i` is the raw draw of the random source
in pass `i`, and `rand.Intn(len(choices))` is `rnd i % len(choices)`, so that
every outcome of the random choices is some `rnd`. The result is the slice
`words`; `none` is a panic. -/
def genLoop (c : Chain) (rnd : Nat → Nat) :
    Nat → Nat → Prefix → List String → Option (List String)
  | 0, _, _, words => some words
  | remaining + 1, i, p, words =>
    let choices := mapIndex c.Chain p.String
    if h : choices.length = 0 then
      some words
    else
      let next := choices.get ⟨rnd i % choices.length, Nat.mod_lt _ (Nat.pos_of_ne_zero h)⟩
      match p.Shift next with
      | none => none
      | some p' => genLoop c rnd remaining (i + 1) p' (words ++ [next])

/-- The slice `words` at the end of `GenerateChain(n, seed)`. -/
def generateWords (c : Chain) (n : Int) (rnd : Nat → Nat) : Option (List String) :=
  match makePrefix c.prefixLen with
  | none => none
  | some p => genLoop c rnd n.toNat 0 p []

/-- Source: `func (c *Chain) GenerateChain(n int, seed string)
(string, time.Duration)`: the text `strings.Join(words, " ")`. The elapsed
wall clock time is not modelled; `seed` is not used by the code. -/
def GenerateChain (c : Chain) (n : Int) (seed : String) (rnd : Nat → Nat) :
    Option String :=
  let _ := seed
  (generateWords c n rnd).map (fun words => Join words " ")

/-- The window reached from `p` by shifting in the words of `ws` in turn. -/
def shiftAll : Prefix → List String → Option Prefix
  | p, [] => some p
  | p, w :: ws =>
    match p.Shift w with
    | none => none
    | some p' => shiftAll p' ws

/-! ## Snapshots: `encoding/json` over `compress/gzip` over `os` -/

/-- A JSON value, as the decoder of `encoding/json` reads it. A number is kept
as its literal. The members of an object are in the order of the text; a name
may occur twice. The text of a snapshot is not modelled below this level:
`json.Encoder` writes a value as a text from which `json.Decoder` reads the
same value (the strings here are valid UTF-8), and `gzip` gives back the bytes
it was given. -/
inductive JSON where
  | null : JSON
  | bool (b : Bool) : JSON
  | number (lit : String) : JSON
  | string (s : String) : JSON
  | array (elems : List JSON) : JSON
  | object (members : List (String × JSON)) : JSON

/-- The encoding of a `[]string` by `json.Encoder`: an array of strings. -/
def encodeStrings (v : List String) : JSON := JSON.array (v.map JSON.string)

/-- The encoding of a `map[string][]string` by `json.Encoder`: `null` for a nil
map, otherwise an object with one member for each key, in sorted key order
(the order of the entries of a well formed table). -/
def encodeMap : Option Table → JSON
  | none => JSON.null
  | some t => JSON.object (t.map (fun kv => (kv.1, encodeStrings kv.2)))

/-- Source: `enc.Encode(c)` in `WriteState`. Of the fields of `Chain` only the
exported `Chain` is encoded; `prefixLen`, `mutex` and `log` are not exported
and take no part. -/
def encodeChain (c : Chain) : JSON := JSON.object [("Chain", encodeMap c.Chain)]

/-- The decoding of a JSON value into an element of a `[]string`: a string is
stored; `null` leaves the zero value, and any other value is a type error
that is noted and leaves the zero value too. -/
def decodeString : JSON → String
  | JSON.string s => s
  | _ => ""

/-- The decoding of a JSON value into a fresh `[]string` (the value of a map
entry is decoded into a zero element): an array gives one string for each of
its elements; `null` and every value of another kind leave it of length 0. -/
def decodeStrings : JSON → List String
  | JSON.array elems => elems.map decodeString
  | _ => []

/-- The decoding of a JSON value into the field `Chain` of type
`map[string][]string`, as documented for `json.Unmarshal`: `null` sets the
map to nil; for an object a nil map is allocated, otherwise the existing map is
reused, keeping its entries, and the members are stored in turn; a value of
another kind is a type error that leaves the map as it was. -/
def decodeMap (m : Option Table) : JSON → Option Table
  | JSON.null => none
  | JSON.object members =>
    some (members.foldl (fun t kv => t.set kv.1 (decodeStrings kv.2)) (m.getD []))
  | _ => m

/-- The struct field a member name selects: `json.Unmarshal` takes the exported
field of that name, compared without regard to letter case. `Chain` has the
one exported field `Chain`. -/
def isChainField (name : String) : Bool :=
  name.data.map Char.toLower = "chain".data

/-- Source: `dec.Decode(c)` in `ReadState`, on a JSON value that was read in
full: an object is decoded member by member into the struct, members that
name no field are skipped; `null` has no effect and a value of another kind is
a type error. The error that `Decode` returns is dropped by `ReadState`. -/
def Decode (j : JSON) (c : Chain) : Chain :=
  match j with
  | JSON.object members =>
    members.foldl
      (fun c kv => if isChainField kv.1 then ⟨decodeMap c.Chain kv.2, c.prefixLen⟩ else c) c
  | _ => c

/-- What a file that can be opened holds, as far as `ReadState` can tell:
`notGzip` when `gzip.NewReader` rejects it; otherwise `gzip first`, where
`first` is the first JSON value of the decompressed stream, and `none` when no
complete JSON value can be read from it (a syntax error, a stream cut short). -/
inductive File where
  | notGzip : File
  | gzip (first : Option JSON) : File

/-- The files by name; `none` when `os.Open` fails (absent, unreadable). -/
abbrev FS := String → Option File

/-- Source: `func (c *Chain) ReadState(fileName string)`; the chain after the
call. -/
def ReadState (fs : FS) (fileName : String) (c : Chain) : Chain :=
  match fs fileName with
  | none => c
  | some File.notGzip => c
  | some (File.gzip none) => c
  | some (File.gzip (some j)) => Decode j c

/-- What the disk does during one `WriteState`: `os.Create` fails; or the file
is created and writing fails, leaving some content; or all succeeds. -/
inductive Disk where
  | createFails : Disk
  | writeFails (left : File) : Disk
  | ok : Disk

/-- Source: `func (c *Chain) WriteState(fileName string) (err error)`. The
result is whether an error is returned, and the files after the call. Only a
failure of `os.Create` is returned; the error of `enc.Encode` is assigned
and `nil` is returned. -/
def WriteState (fs : FS) (fileName : String) (c : Chain) (d : Disk) : Bool × FS :=
  match d with
  | Disk.createFails => (true, fs)
  | Disk.writeFails left => (false, Function.update fs fileName (some left))
  | Disk.ok => (false, Function.update fs fileName (some (File.gzip (some (encodeChain c)))))

/-- A JSON value that encodes a table: an object whose member `Chain` is an
object of arrays of strings. -/
def isSnapshot : JSON → Bool
  | JSON.object [("Chain", JSON.object members)] =>
    members.all (fun kv =>
      match kv.2 with
      | JSON.array elems =>
        elems.all (fun e => match e with
          | JSON.string _ => true
          | _ => false)
      | _ => false)
  | _ => false

/-- A JSON value that decodes into no field of `Chain`: a value that is not an
object, or an object none of whose member names selects the field `Chain`. -/
def selectsNoField : JSON → Bool
  | JSON.object members => members.all (fun kv => !isChainField kv.1)
  | _ => true

/-! ## Order of lock and map events -/

/-- What an operation does to the mutex and to the map `c.Chain`. -/
inductive Event where
  | lock : Event
  | unlock : Event
  | mapRead : Event
  | mapWrite : Event
  | mapLen : Event
deriving DecidableEq

/-- Every read or write of the map in the trace of one operation happens
between a `lock` and the next `unlock` of that operation. -/
def guarded : Bool → List Event → Bool
  | _, [] => true
  | _, Event.lock :: rest => guarded true rest
  | _, Event.unlock :: rest => guarded false rest
  | held, _ :: rest => held && guarded held rest

/-- Source: `AddChain`, per token `Lock`, `c.Chain[key]` read and assigned,
`Unlock`. -/
def AddChain_events (input : String) : List Event :=
  (tokens input).flatMap
    (fun _ => [Event.lock, Event.mapRead, Event.mapWrite, Event.unlock])

/-- Source: `GenerateChain`: `Lock`, one read `c.Chain[p.String()]` in each
pass of the loop, the deferred `Unlock`. -/
def GenerateChain_events (passes : Nat) : List Event :=
  Event.lock :: (List.replicate passes Event.mapRead ++ [Event.unlock])

/-- Source: `ReadState`: nothing when `os.Open` fails; `Lock` and the
deferred `Unlock` around the rest: the return when `gzip.NewReader` fails, or
`dec.Decode(c)` and `len(c.Chain)` for the log line. -/
def ReadState_events (fs : FS) (fileName : String) : List Event :=
  match fs fileName with
  | none => []
  | some File.notGzip => [Event.lock, Event.unlock]
  | some (File.gzip none) => [Event.lock, Event.mapLen, Event.unlock]
  | some (File.gzip (some _)) => [Event.lock, Event.mapWrite, Event.mapLen, Event.unlock]

/-- Source: `WriteState`: nothing when `os.Create` fails; otherwise `Lock`,
`enc.Encode(c)`, the deferred `Unlock`. -/
def WriteState_events (d : Disk) : List Event :=
  match d with
  | Disk.createFails => []
  | _ => [Event.lock, Event.mapRead, Event.unlock]

/-- Source: the goroutine of `RunStateSaveTicker`, one disk outcome for each
tick: `WriteState(state)`; on an error the goroutine returns; otherwise
`len(c.Chain)` is evaluated for the log line `checkpoint completed` and the
next tick is awaited. -/
def RunStateSaveTicker_events : List Disk → List Event
  | [] => []
  | Disk.createFails :: _ => WriteState_events Disk.createFails
  | d :: ticks => WriteState_events d ++ Event.mapLen :: RunStateSaveTicker_events ticks

/-! ## Notions used to state the properties -/

/-- The body of the loop of `AddChain` run over a list of tokens: the loop
itself once the scanning is set apart (`addLoop_eq_addTokens`). -/
def addTokens : List String → Prefix → Chain → Option Chain
  | [], _, c => some c
  | s :: ws, p, c =>
    let key := p.String
    match mapAssign c.Chain key (mapIndex c.Chain key ++ [s]) with
    | none => none
    | some m =>
      match p.Shift s with
      | none => none
      | some p' => addTokens ws p' ⟨some m, c.prefixLen⟩

/-- The window after the first `i` tokens of `ws` went through the window
`p`: the last `len p` elements of `p` followed by these tokens. -/
def windowAt (p : Prefix) (ws : List String) (i : Nat) : Prefix :=
  (p ++ ws.take i).drop i

/-- The window formed by the `N` tokens that precede the token of index `i`
(counted from 0) in `ws`, padded on the left with empty strings when fewer
than `N` tokens precede it. -/
def precedingWindow (N : Nat) (ws : List String) (i : Nat) : Prefix :=
  List.replicate (N - i) "" ++ (ws.take i).drop (i - N)

/-- The tokens of `ws` seen under the key `K`, in their order, when `ws` goes
through the window `p`. -/
def observed : Prefix → List String → String → List String
  | _, [], _ => []
  | p, w :: ws, K =>
    (if p.String = K then [w] else []) ++ observed (p.drop 1 ++ [w]) ws K

/-- The number of positions of `ws` that hold the token `t` and are preceded
by a window with key `K`. -/
def frequency (N : Nat) (ws : List String) (K t : String) : Nat :=
  (List.range ws.length).countP
    (fun i => decide (ws[i]? = some t ∧ K = (precedingWindow N ws i).String))

/-- The words `gs` are a walk of the table from the window `p`: each word is
among the successors stored under the key of the window reached so far, and
the window shifts by it. -/
def Walk (c : Chain) : Prefix → List String → Prop
  | _, [] => True
  | p, g :: gs =>
    g ∈ mapIndex c.Chain p.String ∧ ∃ p', p.Shift g = some p' ∧ Walk c p' gs

/-! ## The window -/

theorem copy_tail (a : String) (l : List String) :
    copy (a :: l) ((a :: l).drop 1) = l ++ (a :: l).drop l.length := by
  simp [copy, List.take_of_length_le]

theorem drop_length_cons (a : String) (l : List String) :
    ∃ x, (a :: l).drop l.length = [x] := by
  apply List.length_eq_one.mp
  simp

/-- On a window that is not empty `Shift` drops the head and puts the word at
the tail. -/
theorem Shift_eq (p : Prefix) (word : String) (h : 1 ≤ p.length) :
    p.Shift word = some (p.drop 1 ++ [word]) := by
  cases p with
  | nil => simp at h
  | cons a l =>
    obtain ⟨x, hx⟩ := drop_length_cons a l
    have hc : copy (a :: l) (List.drop 1 (a :: l)) = l ++ [x] := by
      rw [copy_tail, hx]
    simp only [Prefix.Shift, h, if_true, hc]
    simp

/-- C6 (amended): for every window length `N ≥ 1`, every window `p` of length
`N` and every token `t`, `Shift` completes and leaves a window `q` of length
`N` with `q[i] = p[i+1]` for every `i < N-1` and `q[N-1] = t`. -/
theorem Shift_drops_oldest_appends (N : Nat) (p : Prefix) (t : String)
    (hN : 1 ≤ N) (hp : p.length = N) :
    ∃ q, p.Shift t = some q ∧ q.length = N ∧
      (∀ i, i + 1 < N → q[i]? = p[i + 1]? ∧ (q[i]?).isSome = true) ∧
      q[N - 1]? = some t := by
  refine ⟨p.drop 1 ++ [t], Shift_eq p t (by omega), by simp; omega, ?_, ?_⟩
  · intro i hi
    have h1 : i < (p.drop 1).length := by simp; omega
    rw [List.getElem?_append_left h1]
    simp only [List.getElem?_drop]
    rw [Nat.add_comm 1 i]
    refine ⟨rfl, ?_⟩
    rw [List.getElem?_eq_getElem (by omega)]
    rfl
  · have h1 : (p.drop 1).length = N - 1 := by simp; omega
    rw [List.getElem?_append_right (by omega), h1]
    simp

/-- Witness of `Shift_drops_oldest_appends`: the window `["the", "quick"]`
shifted by `"brown"`. -/
theorem Shift_drops_oldest_appends_witness :
    ∃ q, Prefix.Shift ["the", "quick"] "brown" = some q ∧ q.length = 2 ∧
      (∀ i, i + 1 < 2 → q[i]? = (["the", "quick"] : Prefix)[i + 1]? ∧ (q[i]?).isSome = true) ∧
      q[2 - 1]? = some "brown" :=
  Shift_drops_oldest_appends 2 ["the", "quick"] "brown" (by decide) (by decide)

/-- C6 (as stated, refuted): a chain can be constructed with window length 0;
its window is empty, `Shift` panics on it, and so does training on any text
with a token. -/
theorem Shift_fails_on_window_length_zero :
    makePrefix (NewChain 0).prefixLen = some [] ∧
      Prefix.Shift [] "a" = none ∧ AddChain (NewChain 0) "a" = none := by
  decide

/-! ## Key order -/

theorem ltChars_irrefl (a : List Char) : ltChars a a = false := by
  induction a with
  | nil => rfl
  | cons x xs ih => simp [ltChars, ih]

theorem ltChars_trans (a b c : List Char) (h1 : ltChars a b = true)
    (h2 : ltChars b c = true) : ltChars a c = true := by
  induction a generalizing b c with
  | nil =>
    cases b with
    | nil => simp [ltChars] at h1
    | cons y ys =>
      cases c with
      | nil => simp [ltChars] at h2
      | cons z zs => simp [ltChars]
  | cons x xs ih =>
    cases b with
    | nil => simp [ltChars] at h1
    | cons y ys =>
      cases c with
      | nil => simp [ltChars] at h2
      | cons z zs =>
        simp only [ltChars] at h1 h2 ⊢
        rcases lt_trichotomy x y with hxy | hxy | hxy
        · rcases lt_trichotomy y z with hyz | hyz | hyz
          · simp [lt_trans hxy hyz]
          · subst hyz; simp [hxy]
          · simp [not_lt_of_gt hyz, ne_of_gt hyz] at h2
        · subst hxy
          rcases lt_trichotomy x z with hyz | hyz | hyz
          · simp [hyz]
          · subst hyz
            simp only [lt_irrefl, if_false, if_true] at h1 h2 ⊢
            exact ih ys zs h1 h2
          · simp [not_lt_of_gt hyz, ne_of_gt hyz] at h2
        · simp [not_lt_of_gt hxy, ne_of_gt hxy] at h1

theorem ltChars_total (a b : List Char) (h1 : ltChars a b = false) (h2 : a ≠ b) :
    ltChars b a = true := by
  induction a generalizing b with
  | nil =>
    cases b with
    | nil => exact absurd rfl h2
    | cons y ys => simp [ltChars] at h1
  | cons x xs ih =>
    cases b with
    | nil => simp [ltChars]
    | cons y ys =>
      simp only [ltChars] at h1 ⊢
      rcases lt_trichotomy x y with hxy | hxy | hxy
      · simp [hxy] at h1
      · subst hxy
        simp only [lt_irrefl, if_false, if_true] at h1 ⊢
        exact ih ys h1 (fun h => h2 (by rw [h]))
      · simp [hxy]

theorem keyLt_irrefl (a : String) : keyLt a a = false := ltChars_irrefl a.data

theorem keyLt_trans (a b c : String) (h1 : keyLt a b = true) (h2 : keyLt b c = true) :
    keyLt a c = true := ltChars_trans a.data b.data c.data h1 h2

theorem keyLt_total (a b : String) (h1 : keyLt a b = false) (h2 : a ≠ b) :
    keyLt b a = true :=
  ltChars_total a.data b.data h1 (fun h => h2 (String.ext h))

/-! ## Lookup and store -/

/-- A store is seen by the lookup of its key and by no other lookup. -/
theorem Table.get_set (t : Table) (k k' : String) (v : List String) :
    (t.set k v).get k' = if k' = k then some v else t.get k' := by
  induction t with
  | nil => simp [Table.set, Table.get]
  | cons e rest ih =>
    obtain ⟨ke, ve⟩ := e
    simp only [Table.set]
    by_cases h1 : k = ke
    · subst h1
      by_cases h2 : k' = k <;> simp [Table.get, h2]
    · by_cases h3 : keyLt k ke = true
      · by_cases h2 : k' = k <;> simp [Table.get, h1, h2, h3]
      · by_cases h2 : k' = k
        · subst h2
          simp [Table.get, h1, h3, ih]
        · simp [Table.get, h1, h2, h3, ih]

theorem Table.keys_set (t : Table) (k : String) (v : List String) (x : String) :
    x ∈ (t.set k v).keys → x = k ∨ x ∈ t.keys := by
  induction t with
  | nil =>
    intro hx
    simpa [Table.set, Table.keys] using hx
  | cons e rest ih =>
    obtain ⟨ke, ve⟩ := e
    intro hx
    by_cases h1 : k = ke
    · subst h1
      simp [Table.set, Table.keys] at hx ⊢
      tauto
    · cases h3 : keyLt k ke
      · simp [Table.set, Table.keys, h1, h3] at hx ⊢
        rcases hx with hx | ⟨a, hx⟩
        · tauto
        · have h := ih (by simpa [Table.keys] using ⟨a, hx⟩)
          simp [Table.keys] at h
          tauto
      · simp [Table.set, Table.keys, h1, h3] at hx ⊢
        tauto

theorem Table.WF_cons (ke : String) (ve : List String) (rest : Table) :
    Table.WF ((ke, ve) :: rest) ↔
      (∀ x ∈ Table.keys rest, keyLt ke x = true) ∧ Table.WF rest := by
  simp [Table.WF, Table.keys]

/-- A store keeps the entries in strictly increasing key order. -/
theorem Table.WF_set (t : Table) (k : String) (v : List String) (h : t.WF) :
    (t.set k v).WF := by
  induction t with
  | nil => simp [Table.set, Table.WF, Table.keys]
  | cons e rest ih =>
    obtain ⟨ke, ve⟩ := e
    obtain ⟨hhead, hrest⟩ := (Table.WF_cons ke ve rest).mp h
    by_cases h1 : k = ke
    · subst h1
      simp only [Table.set, if_true]
      exact (Table.WF_cons k v rest).mpr ⟨hhead, hrest⟩
    · cases h3 : keyLt k ke
      · have h4 : keyLt ke k = true := keyLt_total k ke h3 h1
        simp only [Table.set, h1, h3, if_false, Bool.false_eq_true]
        refine (Table.WF_cons ke ve _).mpr ⟨?_, ih hrest⟩
        intro x hx
        rcases Table.keys_set rest k v x hx with hx | hx
        · rw [hx]; exact h4
        · exact hhead x hx
      · simp only [Table.set, h1, h3, if_false, if_true]
        refine (Table.WF_cons k v _).mpr ⟨?_, h⟩
        intro x hx
        simp only [Table.keys, List.map_cons, List.mem_cons] at hx
        rcases hx with hx | hx
        · rw [hx]; exact h3
        · exact keyLt_trans k ke x h3 (hhead x hx)

theorem Table.total_cons (e : String × List String) (t : Table) :
    Table.total (e :: t) = e.2.length + Table.total t := by
  simp [Table.total]

theorem Table.get_eq_none (t : Table) (k : String) (h : k ∉ t.keys) :
    t.get k = none := by
  induction t with
  | nil => rfl
  | cons e rest ih =>
    obtain ⟨ke, ve⟩ := e
    simp only [Table.keys, List.map_cons, List.mem_cons, not_or] at h
    simp only [Table.get, h.1, if_false]
    exact ih h.2

theorem Table.get_of_lt_head (ke : String) (ve : List String) (rest : Table) (k : String)
    (h : Table.WF ((ke, ve) :: rest)) (hk : keyLt k ke = true) : rest.get k = none := by
  obtain ⟨hhead, _⟩ := (Table.WF_cons ke ve rest).mp h
  apply Table.get_eq_none
  intro hmem
  have h1 := keyLt_trans k ke k hk (hhead k hmem)
  rw [keyLt_irrefl] at h1
  exact Bool.noConfusion h1

/-- A store changes the number of successor entries of a well formed table by
the change in length of the list under its key. -/
theorem Table.total_set (t : Table) (k : String) (v : List String) (h : t.WF) :
    (t.set k v).total + ((t.get k).getD []).length = t.total + v.length := by
  induction t with
  | nil => simp [Table.set, Table.get, Table.total]
  | cons e rest ih =>
    obtain ⟨ke, ve⟩ := e
    by_cases h1 : k = ke
    · subst h1
      simp only [Table.set, Table.get, if_true, Table.total_cons, Option.getD_some]
      omega
    · cases h3 : keyLt k ke
      · have ih2 := ih ((Table.WF_cons ke ve rest).mp h).2
        simp only [Table.set, Table.get, h1, h3, if_false, Bool.false_eq_true,
          Table.total_cons]
        omega
      · simp only [Table.set, Table.get, h1, h3, if_false, if_true, Table.total_cons,
          Table.get_of_lt_head ke ve rest k h h3, Option.getD_none, List.length_nil]
        omega

/-- A store under a key above all keys present goes to the end. -/
theorem Table.set_last (t : Table) (k : String) (v : List String)
    (h : ∀ x ∈ t.keys, keyLt x k = true) : t.set k v = t ++ [(k, v)] := by
  induction t with
  | nil => simp [Table.set]
  | cons e rest ih =>
    obtain ⟨ke, ve⟩ := e
    have hke : keyLt ke k = true := h ke (by simp [Table.keys])
    have h1 : k ≠ ke := by
      intro hk
      rw [hk, keyLt_irrefl] at hke
      exact Bool.noConfusion hke
    have h3 : keyLt k ke = false := by
      cases hlt : keyLt k ke
      · rfl
      · have := keyLt_trans k ke k hlt hke
        rw [keyLt_irrefl] at this
        exact Bool.noConfusion this
    simp only [Table.set, h1, h3, if_false, List.cons_append]
    rw [ih (fun x hx => h x (by simp [Table.keys] at hx ⊢; exact Or.inr hx))]
    simp

/-- Storing the entries of a well formed table in their order, on top of the
entries before them, gives the table back. -/
theorem Table.foldl_set_append (acc rest : Table)
    (h : Table.WF (acc ++ rest)) :
    rest.foldl (fun t kv => t.set kv.1 kv.2) acc = acc ++ rest := by
  induction rest generalizing acc with
  | nil => simp
  | cons e rest ih =>
    obtain ⟨ke, ve⟩ := e
    have hlast : acc.set ke ve = acc ++ [(ke, ve)] := by
      apply Table.set_last
      intro x hx
      simp only [Table.WF, Table.keys, List.map_append, List.map_cons,
        List.pairwise_append, List.mem_cons] at h
      exact h.2.2 x hx ke (Or.inl rfl)
    simp only [List.foldl_cons, hlast]
    rw [ih (acc ++ [(ke, ve)]) (by simpa using h)]
    simp

/-! ## Tokens -/

theorem Fscan_eq_some (rd : List Char) (s : String) (rest : List Char)
    (h : Fscan rd = some (s, rest)) :
    ∃ r rs, rd.dropWhile isSpace = r :: rs ∧ isSpace r = false ∧
      s = String.mk (r :: rs.takeWhile (fun x => !isSpace x)) ∧
      rest = rs.dropWhile (fun x => !isSpace x) := by
  unfold Fscan at h
  split at h
  · exact Option.noConfusion h
  · rename_i r rs heq
    have hr : isSpace r = false := by
      have h1 := List.head_dropWhile_not isSpace rd (by rw [heq]; simp)
      simpa [heq] using h1
    refine ⟨r, rs, heq, hr, ?_, ?_⟩
    · have h2 := (Prod.mk.inj (Option.some.inj h)).1
      rw [← h2]
      simp [List.takeWhile, hr]
    · have h2 := (Prod.mk.inj (Option.some.inj h)).2
      rw [← h2]
      simp [List.dropWhile, hr]

/-- A call of `Fscan` that succeeds consumes at least one rune. -/
theorem Fscan_length (rd : List Char) (s : String) (rest : List Char)
    (h : Fscan rd = some (s, rest)) : rest.length < rd.length := by
  obtain ⟨r, rs, h1, _, _, h4⟩ := Fscan_eq_some rd s rest h
  have h5 : (r :: rs).length ≤ rd.length := by
    rw [← h1]
    exact (List.dropWhile_sublist isSpace).length_le
  have h6 : rest.length ≤ rs.length := by
    rw [h4]
    exact (List.dropWhile_sublist _).length_le
  simp at h5
  omega

/-- A token is not empty and holds no space. -/
theorem Fscan_token (rd : List Char) (s : String) (rest : List Char)
    (h : Fscan rd = some (s, rest)) :
    s.data ≠ [] ∧ ∀ ch ∈ s.data, isSpace ch = false := by
  obtain ⟨r, rs, _, h2, h3, _⟩ := Fscan_eq_some rd s rest h
  subst h3
  refine ⟨by simp, ?_⟩
  intro ch hch
  simp only [List.mem_cons] at hch
  rcases hch with hch | hch
  · rw [hch]; exact h2
  · have := List.mem_takeWhile_imp hch
    simpa using this

theorem Fscan_all_space (rd : List Char) (h : ∀ ch ∈ rd, isSpace ch = true) :
    Fscan rd = none := by
  have h1 : rd.dropWhile isSpace = [] := by
    rw [List.dropWhile_eq_nil_iff]
    exact h
  simp [Fscan, h1]

/-- The tokens do not depend on the bound once it exceeds the length. -/
theorem scanAll_fuel (f1 f2 : Nat) (rd : List Char) (h1 : rd.length < f1)
    (h2 : rd.length < f2) : scanAll f1 rd = scanAll f2 rd := by
  induction f1 generalizing f2 rd with
  | zero => omega
  | succ f1 ih =>
    cases f2 with
    | zero => omega
    | succ f2 =>
      simp only [scanAll]
      cases hF : Fscan rd with
      | none => rfl
      | some res =>
        obtain ⟨s, rest⟩ := res
        have hl := Fscan_length rd s rest hF
        simp only
        rw [ih f2 rest (by omega) (by omega)]

theorem scanAll_token (fuel : Nat) (rd : List Char) :
    ∀ w ∈ scanAll fuel rd, w.data ≠ [] ∧ ∀ ch ∈ w.data, isSpace ch = false := by
  induction fuel generalizing rd with
  | zero => simp [scanAll]
  | succ fuel ih =>
    intro w hw
    simp only [scanAll] at hw
    cases hF : Fscan rd with
    | none => simp [hF] at hw
    | some res =>
      obtain ⟨s, rest⟩ := res
      simp only [hF, List.mem_cons] at hw
      rcases hw with hw | hw
      · rw [hw]; exact Fscan_token rd s rest hF
      · exact ih rest w hw

/-- Every token of a text is not empty and holds no space. -/
theorem tokens_token (input : String) :
    ∀ w ∈ tokens input, w.data ≠ [] ∧ ∀ ch ∈ w.data, isSpace ch = false :=
  scanAll_token _ _

/-- A text of spaces only, the empty text included, has no token. -/
theorem tokens_all_space (input : String) (h : ∀ ch ∈ input.data, isSpace ch = true) :
    tokens input = [] := by
  simp [tokens, scanAll, Fscan_all_space input.data h]

/-- The loop of `AddChain` is its body run over the tokens of the reader. -/
theorem addLoop_eq_addTokens (fuel : Nat) (rd : List Char) (p : Prefix) (c : Chain)
    (h : rd.length < fuel) : addLoop fuel rd p c = addTokens (scanAll fuel rd) p c := by
  induction fuel generalizing rd p c with
  | zero => omega
  | succ fuel ih =>
    simp only [addLoop, scanAll]
    cases hF : Fscan rd with
    | none => simp [addTokens]
    | some res =>
      obtain ⟨s, rest⟩ := res
      have hl := Fscan_length rd s rest hF
      simp only [addTokens]
      cases mapAssign c.Chain p.String (mapIndex c.Chain p.String ++ [s]) with
      | none => rfl
      | some m =>
        simp only
        cases p.Shift s with
        | none => rfl
        | some p' =>
          simp only
          exact ih rest p' _ (by omega)

/-! ## Training -/

/-- Training on a list of tokens from a window that is not empty, on an
allocated map: it completes; under every key the list grows by the tokens
observed under that key, in order; well formed entries stay well formed and
their number grows by one for each token. -/
theorem addTokens_spec (ws : List String) (p : Prefix) (tbl : Table) (n : Int)
    (hp : 1 ≤ p.length) :
    ∃ tbl', addTokens ws p ⟨some tbl, n⟩ = some ⟨some tbl', n⟩ ∧
      (∀ K, tbl'.get K =
        if observed p ws K = [] then tbl.get K
        else some ((tbl.get K).getD [] ++ observed p ws K)) ∧
      (tbl.WF → tbl'.WF ∧ tbl'.total = tbl.total + ws.length) := by
  induction ws generalizing p tbl with
  | nil => exact ⟨tbl, rfl, by simp [observed], fun h => ⟨h, by simp⟩⟩
  | cons s ws ih =>
    have hlen : (p.drop 1 ++ [s]).length = p.length := by simp; omega
    obtain ⟨tbl', h1, h2, h3⟩ :=
      ih (p.drop 1 ++ [s]) (tbl.set p.String ((tbl.get p.String).getD [] ++ [s]))
        (by omega)
    refine ⟨tbl', ?_, ?_, ?_⟩
    · simp only [addTokens, mapAssign, mapIndex, Shift_eq p s hp]
      exact h1
    · intro K
      rw [h2 K, Table.get_set]
      by_cases hK : K = p.String
      · subst hK
        by_cases ho : observed (List.drop 1 p ++ [s]) ws (Prefix.String p) = []
        · simp [observed, ho]
        · simp [observed, ho]
      · have hK2 : ¬ p.String = K := fun h => hK h.symm
        simp [observed, hK, hK2]
    · intro hwf
      have hwf2 := Table.WF_set tbl p.String ((tbl.get p.String).getD [] ++ [s]) hwf
      obtain ⟨h4, h5⟩ := h3 hwf2
      have h6 := Table.total_set tbl p.String ((tbl.get p.String).getD [] ++ [s]) hwf
      refine ⟨h4, ?_⟩
      have h7 : ((tbl.get p.String).getD [] ++ [s]).length =
          ((tbl.get p.String).getD []).length + 1 := by simp
      rw [h7] at h6
      rw [h5, List.length_cons]
      omega

theorem windowAt_zero (p : Prefix) (ws : List String) : windowAt p ws 0 = p := by
  simp [windowAt]

theorem windowAt_succ (p : Prefix) (w : String) (ws : List String) (i : Nat)
    (hp : 1 ≤ p.length) :
    windowAt p (w :: ws) (i + 1) = windowAt (p.drop 1 ++ [w]) ws i := by
  cases p with
  | nil => simp at hp
  | cons a q => simp [windowAt]

/-- The window that starts all empty is, at every position, the window of
the preceding tokens padded on the left. -/
theorem windowAt_replicate (N : Nat) (ws : List String) (i : Nat) :
    windowAt (List.replicate N "") ws i = precedingWindow N ws i := by
  simp [windowAt, precedingWindow, List.drop_append_eq_append_drop]

/-- From position `N` on the preceding window is made of tokens only. -/
theorem precedingWindow_of_le (N : Nat) (ws : List String) (j : Nat) (h : N ≤ j) :
    precedingWindow N ws j = (ws.drop (j - N)).take N := by
  have h0 : N - j = 0 := by omega
  have h1 : j - (j - N) = N := by omega
  simp [precedingWindow, h0, List.drop_take, h1]

/-- The token at a position is observed under the key of the window there. -/
theorem mem_observed (ws : List String) (p : Prefix) (K : String) (i : Nat) (w : String)
    (hp : 1 ≤ p.length) (hw : ws[i]? = some w) (hK : (windowAt p ws i).String = K) :
    w ∈ observed p ws K := by
  induction ws generalizing p i with
  | nil => simp at hw
  | cons s ws ih =>
    cases i with
    | zero =>
      simp only [List.getElem?_cons_zero, Option.some.injEq] at hw
      rw [windowAt_zero] at hK
      simp [observed, hK, hw]
    | succ i =>
      simp only [List.getElem?_cons_succ] at hw
      rw [windowAt_succ p s ws i hp] at hK
      have hlen : 1 ≤ (p.drop 1 ++ [s]).length := by simp
      simp only [observed, List.mem_append]
      exact Or.inr (ih (p.drop 1 ++ [s]) i hlen hw hK)

/-- The number of times a token is observed under a key is the number of
positions that hold it and have that key before them. -/
theorem count_observed (ws : List String) (p : Prefix) (K t : String) (hp : 1 ≤ p.length) :
    (observed p ws K).count t =
      (List.range ws.length).countP
        (fun i => decide (ws[i]? = some t ∧ K = (windowAt p ws i).String)) := by
  induction ws generalizing p with
  | nil => simp [observed]
  | cons s ws ih =>
    have hlen : 1 ≤ (p.drop 1 ++ [s]).length := by simp
    rw [List.length_cons, List.range_succ_eq_map, List.countP_cons, List.countP_map]
    have hfun : ((fun i => decide ((s :: ws)[i]? = some t ∧
        K = (windowAt p (s :: ws) i).String)) ∘ Nat.succ) =
        (fun i => decide (ws[i]? = some t ∧
          K = (windowAt (p.drop 1 ++ [s]) ws i).String)) := by
      funext i
      simp only [Function.comp, Nat.succ_eq_add_one, List.getElem?_cons_succ,
        windowAt_succ p s ws i hp]
    rw [hfun, ← ih (p.drop 1 ++ [s]) hlen]
    simp only [observed, List.count_append, windowAt_zero, List.getElem?_cons_zero,
      Option.some.injEq]
    by_cases h1 : p.String = K
    · by_cases h2 : s = t
      · simp [h1, h2]; omega
      · have h4 : List.count t [s] = 0 :=
          List.count_eq_zero.mpr (by simp; exact fun h => h2 h.symm)
        simp [h1, h2, h4]
    · have h3 : ¬ K = p.String := fun h => h1 h.symm
      simp [h1, h3]

theorem makePrefix_natCast (N : Nat) : makePrefix (N : Int) = some (List.replicate N "") := by
  simp [makePrefix]

/-- `AddChain` is the body of its loop run over the tokens of the text, from
the all empty window. -/
theorem AddChain_eq (m : Option Table) (N : Nat) (input : String) :
    AddChain ⟨m, (N : Int)⟩ input =
      (addTokens (tokens input) (List.replicate N "") ⟨m, (N : Int)⟩).map
        (fun c' => (c', input.utf8ByteSize)) := by
  have hfuel : input.data.length < input.length + 1 :=
    Nat.lt_succ_self input.data.length
  simp only [AddChain, makePrefix_natCast, tokens,
    addLoop_eq_addTokens (input.length + 1) input.data _ _ hfuel]
  cases addTokens (scanAll (input.length + 1) input.data) (List.replicate N "")
    ⟨m, (N : Int)⟩ <;> rfl

/-- Training a chain of window length `N ≥ 1` with an allocated map on a text:
the call returns, and the table after it is the table before it with, under
every key, the tokens observed under that key appended. -/
theorem AddChain_spec (N : Nat) (tbl : Table) (input : String) (hN : 1 ≤ N) :
    ∃ tbl', AddChain ⟨some tbl, (N : Int)⟩ input =
        some (⟨some tbl', (N : Int)⟩, input.utf8ByteSize) ∧
      addTokens (tokens input) (List.replicate N "") ⟨some tbl, (N : Int)⟩ =
        some ⟨some tbl', (N : Int)⟩ ∧
      (∀ K, tbl'.get K =
        if observed (List.replicate N "") (tokens input) K = [] then tbl.get K
        else some ((tbl.get K).getD [] ++ observed (List.replicate N "") (tokens input) K)) ∧
      (tbl.WF → tbl'.WF ∧ tbl'.total = tbl.total + (tokens input).length) := by
  obtain ⟨tbl', h1, h2, h3⟩ :=
    addTokens_spec (tokens input) (List.replicate N "") tbl (N : Int) (by simpa using hN)
  refine ⟨tbl', ?_, h1, h2, h3⟩
  rw [AddChain_eq, h1]
  rfl

/-- C1: for every window length `N ≥ 1`, every table and every text `T` with
tokens `w1..wk`, `AddChain(T)` returns and afterwards, for every `i` with
`N < i ≤ k`, the successor list stored under the key of the window
`[w_{i-N}, ..., w_{i-1}]` contains `w_i`. -/
theorem AddChain_records_successors (N : Nat) (tbl : Table) (T : String) (hN : 1 ≤ N) :
    ∃ tbl', AddChain ⟨some tbl, (N : Int)⟩ T =
        some (⟨some tbl', (N : Int)⟩, T.utf8ByteSize) ∧
      ∀ i, N < i → i ≤ (tokens T).length →
        ∃ w, (tokens T)[i - 1]? = some w ∧
          w ∈ mapIndex (some tbl')
            (Prefix.String (((tokens T).drop (i - 1 - N)).take N)) := by
  obtain ⟨tbl', h1, _, h2, _⟩ := AddChain_spec N tbl T hN
  refine ⟨tbl', h1, ?_⟩
  intro i hi hik
  have hlt : i - 1 < (tokens T).length := by omega
  refine ⟨(tokens T)[i - 1], List.getElem?_eq_getElem hlt, ?_⟩
  have hmem : (tokens T)[i - 1] ∈ observed (List.replicate N "") (tokens T)
      (Prefix.String (((tokens T).drop (i - 1 - N)).take N)) := by
    apply mem_observed (tokens T) (List.replicate N "") _ (i - 1) _ (by simpa using hN)
      (List.getElem?_eq_getElem hlt)
    rw [windowAt_replicate, precedingWindow_of_le N (tokens T) (i - 1) (by omega)]
  have hne : observed (List.replicate N "") (tokens T)
      (Prefix.String (((tokens T).drop (i - 1 - N)).take N)) ≠ [] :=
    List.ne_nil_of_mem hmem
  simp only [mapIndex, h2, hne, if_false, Option.getD_some, List.mem_append]
  exact Or.inr hmem

/-- Witness of `AddChain_records_successors`, the example of the
specification: window length 2, a fresh chain and the text
`the quick brown fox the quick dog`. -/
theorem AddChain_records_successors_witness :
    1 ≤ 2 ∧ ∃ tbl', AddChain (NewChain 2) "the quick brown fox the quick dog" =
        some (⟨some tbl', 2⟩, 33) ∧
      "brown" ∈ mapIndex (some tbl') "the quick" ∧
      "dog" ∈ mapIndex (some tbl') "the quick" ∧
      "fox" ∈ mapIndex (some tbl') "quick brown" ∧
      "the" ∈ mapIndex (some tbl') "brown fox" := by
  refine ⟨by decide, ?_⟩
  obtain ⟨tbl', h1, h2⟩ :=
    AddChain_records_successors 2 [] "the quick brown fox the quick dog" (by decide)
  have ht : tokens "the quick brown fox the quick dog" =
      ["the", "quick", "brown", "fox", "the", "quick", "dog"] := by decide
  rw [ht] at h2
  refine ⟨tbl', h1, ?_, ?_, ?_, ?_⟩
  · obtain ⟨w, hw, hmem⟩ := h2 3 (by decide) (by decide)
    cases hw
    exact hmem
  · obtain ⟨w, hw, hmem⟩ := h2 7 (by decide) (by decide)
    cases hw
    exact hmem
  · obtain ⟨w, hw, hmem⟩ := h2 4 (by decide) (by decide)
    cases hw
    exact hmem
  · obtain ⟨w, hw, hmem⟩ := h2 5 (by decide) (by decide)
    cases hw
    exact hmem

/-- C7: training is append only. For every table and every text, on a chain
of window length `N ≥ 1`, `AddChain` returns; every key present before is
present after and its earlier list is a prefix of its new list; a text with no
token, such as an empty text or one of spaces only, leaves the table as it
was. -/
theorem AddChain_append_only (N : Nat) (tbl : Table) (T : String) (hN : 1 ≤ N) :
    ∃ tbl', AddChain ⟨some tbl, (N : Int)⟩ T =
        some (⟨some tbl', (N : Int)⟩, T.utf8ByteSize) ∧
      (∀ K v, tbl.get K = some v → ∃ v', tbl'.get K = some (v ++ v')) ∧
      (tokens T = [] → tbl' = tbl) ∧
      ((∀ ch ∈ T.data, isSpace ch = true) → tbl' = tbl) := by
  obtain ⟨tbl', h1, h0, h2, _⟩ := AddChain_spec N tbl T hN
  have hnil : tokens T = [] → tbl' = tbl := by
    intro ht
    rw [ht] at h0
    simp only [addTokens, Option.some.injEq, Chain.mk.injEq, and_true] at h0
    exact h0.symm
  refine ⟨tbl', h1, ?_, hnil, fun h => hnil (tokens_all_space T h)⟩
  intro K v hv
  rw [h2 K, hv]
  by_cases ho : observed (List.replicate N "") (tokens T) K = []
  · exact ⟨[], by simp [ho]⟩
  · exact ⟨observed (List.replicate N "") (tokens T) K, by simp [ho]⟩

/-- Witness of `AddChain_append_only`: window length 1, the table
`"a" ↦ ["b"]` and the text `a c`. -/
theorem AddChain_append_only_witness :
    1 ≤ 1 ∧ ∃ tbl', AddChain ⟨some [("a", ["b"])], 1⟩ "a c" = some (⟨some tbl', 1⟩, 3) ∧
      (∀ K v, Table.get [("a", ["b"])] K = some v → ∃ v', tbl'.get K = some (v ++ v')) ∧
      (tokens "a c" = [] → tbl' = [("a", ["b"])]) ∧
      ((∀ ch ∈ "a c".data, isSpace ch = true) → tbl' = [("a", ["b"])]) :=
  ⟨by decide, AddChain_append_only 1 [("a", ["b"])] "a c" (by decide)⟩

/-! ## Keys and spaces -/

theorem mem_Join (p : List String) (sep w : String) (ch : Char) (hw : w ∈ p)
    (hch : ch ∈ w.data) : ch ∈ (Join p sep).data := by
  induction p with
  | nil => simp at hw
  | cons a rest ih =>
    cases rest with
    | nil =>
      simp only [List.mem_singleton] at hw
      subst hw
      simpa [Join] using hch
    | cons b rest =>
      simp only [Join, String.data_append, List.mem_append]
      simp only [List.mem_cons] at hw
      rcases hw with hw | hw
      · subst hw
        exact Or.inl (Or.inl hch)
      · exact Or.inr (ih (by simpa using hw))

theorem Join_replicate_empty (N : Nat) :
    ∀ ch ∈ (Join (List.replicate N "") " ").data, ch = ' ' := by
  induction N with
  | zero => simp [Join]
  | succ n ih =>
    cases n with
    | zero => simp [Join, List.replicate]
    | succ n =>
      intro ch hch
      simp only [List.replicate, Join, String.data_append, List.mem_append] at hch ih
      rcases hch with (hch | hch) | hch
      · simp at hch
      · simpa using hch
      · exact ih ch hch

/-- A window that holds a word with a rune other than the space has a key other
than the key of the all empty window. -/
theorem key_ne_empty_key (N : Nat) (p : Prefix)
    (hp : ∃ w ∈ p, ∃ ch ∈ w.data, ch ≠ ' ') :
    p.String ≠ Prefix.String (List.replicate N "") := by
  obtain ⟨w, hw, ch, hch, hne⟩ := hp
  intro h
  have h1 : ch ∈ (Prefix.String p).data := mem_Join p " " w ch hw hch
  rw [h] at h1
  exact hne (Join_replicate_empty N ch h1)

/-- Nothing is observed under the key of the all empty window once a token is
in the window. -/
theorem observed_empty_key (N : Nat) (ws : List String) (p : Prefix)
    (hp : ∃ w ∈ p, ∃ ch ∈ w.data, ch ≠ ' ')
    (hws : ∀ w ∈ ws, ∃ ch ∈ w.data, ch ≠ ' ') :
    observed p ws (Prefix.String (List.replicate N "")) = [] := by
  induction ws generalizing p with
  | nil => rfl
  | cons s ws ih =>
    have h1 := key_ne_empty_key N p hp
    have h2 := ih (p.drop 1 ++ [s]) ⟨s, by simp, hws s (by simp)⟩
      (fun w hw => hws w (by simp [hw]))
    simp only [observed, h1, if_false, List.nil_append]
    exact h2

theorem token_has_rune (w : String)
    (h : w.data ≠ [] ∧ ∀ ch ∈ w.data, isSpace ch = false) :
    ∃ ch ∈ w.data, ch ≠ ' ' := by
  obtain ⟨h1, h2⟩ := h
  cases hd : w.data with
  | nil => exact absurd hd h1
  | cons a rest =>
    refine ⟨a, by simp, ?_⟩
    intro ha
    have h3 := h2 a (by rw [hd]; simp)
    rw [ha] at h3
    revert h3
    decide

/-- C8: multiplicity is observed frequency. A fresh chain of window length
`N ≥ 1` trained once on a text with tokens `w1..wk`: for every key `K` and
token `t` the number of occurrences of `t` in the list under `K` is the
number of positions that hold `t` and have the window of key `K` before
them; the table holds `k` successor entries in all; every stored entry comes
from such a position; and the list of the all empty window is `[w1]`. -/
theorem AddChain_fresh_frequency (N : Nat) (T : String) (hN : 1 ≤ N) :
    ∃ tbl', AddChain (NewChain (N : Int)) T =
        some (⟨some tbl', (N : Int)⟩, T.utf8ByteSize) ∧
      (∀ K t, (mapIndex (some tbl') K).count t = frequency N (tokens T) K t) ∧
      tbl'.total = (tokens T).length ∧
      (∀ K t, t ∈ mapIndex (some tbl') K →
        ∃ i, (tokens T)[i]? = some t ∧ K = (precedingWindow N (tokens T) i).String) ∧
      (∀ w1 rest, tokens T = w1 :: rest →
        tbl'.get (Prefix.String (List.replicate N "")) = some [w1]) := by
  obtain ⟨tbl', h1, _, h2, h3⟩ := AddChain_spec N [] T hN
  have hp : 1 ≤ (List.replicate N "").length := by simpa using hN
  have hidx : ∀ K, mapIndex (some tbl') K = observed (List.replicate N "") (tokens T) K := by
    intro K
    simp only [mapIndex, h2 K]
    by_cases ho : observed (List.replicate N "") (tokens T) K = []
    · simp [ho, Table.get]
    · simp [ho, Table.get]
  have hcount : ∀ K t, (mapIndex (some tbl') K).count t = frequency N (tokens T) K t := by
    intro K t
    rw [hidx K, count_observed (tokens T) (List.replicate N "") K t hp]
    simp only [frequency, windowAt_replicate]
  refine ⟨tbl', h1, hcount, ?_, ?_, ?_⟩
  · have h4 := (h3 (by simp [Table.WF, Table.keys])).2
    simpa [Table.total] using h4
  · intro K t ht
    have hpos : 0 < (mapIndex (some tbl') K).count t := List.count_pos_iff.mpr ht
    rw [hcount K t] at hpos
    obtain ⟨i, _, hi⟩ := List.countP_pos_iff.mp hpos
    exact ⟨i, by simpa using hi⟩
  · intro w1 rest ht
    have htok := tokens_token T
    rw [ht] at htok
    have hobs : observed (List.replicate N "") (w1 :: rest)
        (Prefix.String (List.replicate N "")) = [w1] := by
      have h5 := observed_empty_key N rest ((List.replicate N "").drop 1 ++ [w1])
        ⟨w1, by simp, token_has_rune w1 (htok w1 (by simp))⟩
        (fun w hw => token_has_rune w (htok w (by simp [hw])))
      simp only [observed, if_true, h5, List.append_nil]
    rw [h2, ht, hobs]
    simp [Table.get]

/-- Witness of `AddChain_fresh_frequency`: window length 2 and the text
`the quick brown fox the quick dog`. -/
theorem AddChain_fresh_frequency_witness :
    1 ≤ 2 ∧ ∃ tbl', AddChain (NewChain 2) "the quick brown fox the quick dog" =
        some (⟨some tbl', 2⟩, 33) ∧
      (mapIndex (some tbl') "the quick").count "dog" = 1 ∧
      tbl'.total = 7 ∧
      tbl'.get " " = some ["the"] := by
  refine ⟨by decide, ?_⟩
  obtain ⟨tbl', h1, h2, h3, _, h5⟩ :=
    AddChain_fresh_frequency 2 "the quick brown fox the quick dog" (by decide)
  have ht : tokens "the quick brown fox the quick dog" =
      ["the", "quick", "brown", "fox", "the", "quick", "dog"] := by decide
  refine ⟨tbl', h1, ?_, ?_, ?_⟩
  · rw [h2 "the quick" "dog", ht]
    decide
  · rw [h3, ht]
    rfl
  · exact h5 "the" ["quick", "brown", "fox", "the", "quick", "dog"] ht

/-! ## Generation -/

/-- The loop of `GenerateChain` from a window that is not empty: it
completes; the words it adds are at most as many as the passes left and are a
walk of the table; the window they lead to is reached without failure, and
when fewer words were added than passes were left, nothing is stored under
the key of that window. -/
theorem genLoop_spec (c : Chain) (rnd : Nat → Nat) (r i : Nat) (p : Prefix)
    (words : List String) (hp : 1 ≤ p.length) :
    ∃ gs w, genLoop c rnd r i p words = some (words ++ gs) ∧ gs.length ≤ r ∧
      Walk c p gs ∧ shiftAll p gs = some w ∧
      (gs.length < r → mapIndex c.Chain w.String = []) := by
  induction r generalizing i p words with
  | zero => exact ⟨[], p, by simp [genLoop], by simp, trivial, rfl, by simp⟩
  | succ r ih =>
    by_cases h : (mapIndex c.Chain p.String).length = 0
    · refine ⟨[], p, ?_, by simp, trivial, rfl, ?_⟩
      · simp only [genLoop, dif_pos h, List.append_nil]
      · intro _
        exact List.length_eq_zero.mp h
    · have hpos : 0 < (mapIndex c.Chain p.String).length := Nat.pos_of_ne_zero h
      have hlen : 1 ≤ (p.drop 1 ++ [(mapIndex c.Chain p.String).get
          ⟨rnd i % (mapIndex c.Chain p.String).length, Nat.mod_lt _ hpos⟩]).length := by
        simp
      obtain ⟨gs, w, h1, h2, h3, h4, h5⟩ := ih (i + 1) _
        (words ++ [(mapIndex c.Chain p.String).get
          ⟨rnd i % (mapIndex c.Chain p.String).length, Nat.mod_lt _ hpos⟩]) hlen
      refine ⟨(mapIndex c.Chain p.String).get
          ⟨rnd i % (mapIndex c.Chain p.String).length, Nat.mod_lt _ hpos⟩ :: gs, w,
        ?_, by simp; omega, ?_, ?_, ?_⟩
      · simp only [genLoop, dif_neg h, Shift_eq p _ hp, h1]
        simp
      · exact ⟨List.get_mem _ _ _, _, Shift_eq p _ hp, h3⟩
      · simp only [shiftAll, Shift_eq p _ hp]
        exact h4
      · intro hlt
        exact h5 (by simp at hlt; omega)

/-- A walk, word by word: each word is among the successors stored under the
key of the window that the words before it lead to. -/
theorem Walk_index (c : Chain) (p : Prefix) (gs : List String) (h : Walk c p gs) :
    ∀ j, j < gs.length → ∃ w g, shiftAll p (gs.take j) = some w ∧
      gs[j]? = some g ∧ g ∈ mapIndex c.Chain w.String := by
  induction gs generalizing p with
  | nil => intro j hj; simp at hj
  | cons g gs ih =>
    obtain ⟨hmem, p', hs, hw⟩ := h
    intro j hj
    cases j with
    | zero => exact ⟨p, g, rfl, by simp, hmem⟩
    | succ j =>
      obtain ⟨w, g', h1, h2, h3⟩ := ih p' hw j (by simpa using hj)
      refine ⟨w, g', ?_, by simpa using h2, h3⟩
      simp only [List.take_succ_cons, shiftAll, hs]
      exact h1

/-- C2: for every chain of window length `N ≥ 1` (any map, nil included),
every `n` and every outcome `rnd` of the random choices, `GenerateChain(n,
seed)` returns the join by single spaces of words `g1..gm` with
`m ≤ max n 0` (so none when `n ≤ 0`), each `g_j` an element of the successor
list stored under the key of the window obtained from `N` empty strings by
shifting in `g1..g_{j-1}`; and on a fresh chain the text is empty. -/
theorem GenerateChain_walks_table (m : Option Table) (N : Nat) (n : Int) (seed : String)
    (rnd : Nat → Nat) (hN : 1 ≤ N) :
    (∃ gs, GenerateChain ⟨m, (N : Int)⟩ n seed rnd = some (Join gs " ") ∧
      generateWords ⟨m, (N : Int)⟩ n rnd = some gs ∧
      (gs.length : Int) ≤ max n 0 ∧
      (n ≤ 0 → gs = [] ∧ GenerateChain ⟨m, (N : Int)⟩ n seed rnd = some "") ∧
      ∀ j, j < gs.length → ∃ w g, shiftAll (List.replicate N "") (gs.take j) = some w ∧
        gs[j]? = some g ∧ g ∈ mapIndex m w.String) ∧
    GenerateChain (NewChain (N : Int)) n seed rnd = some "" := by
  have hp : 1 ≤ (List.replicate N "").length := by simpa using hN
  constructor
  · obtain ⟨gs, w, h1, h2, h3, _, _⟩ :=
      genLoop_spec ⟨m, (N : Int)⟩ rnd n.toNat 0 (List.replicate N "") [] hp
    have hw : generateWords ⟨m, (N : Int)⟩ n rnd = some gs := by
      simp only [generateWords, makePrefix_natCast, h1, List.nil_append]
    have hg : GenerateChain ⟨m, (N : Int)⟩ n seed rnd = some (Join gs " ") := by
      simp only [GenerateChain, hw, Option.map_some']
    refine ⟨gs, hg, hw, by omega, ?_, Walk_index _ _ gs h3⟩
    intro hn
    have h0 : n.toNat = 0 := by omega
    have hgs : gs = [] := List.length_eq_zero.mp (by omega)
    refine ⟨hgs, ?_⟩
    rw [hg, hgs]
    rfl
  · cases hr : n.toNat with
    | zero => simp [GenerateChain, generateWords, NewChain, makePrefix_natCast, hr, genLoop, Join]
    | succ r =>
      simp [GenerateChain, generateWords, NewChain, makePrefix_natCast, hr, genLoop,
        mapIndex, Table.get, Join]

/-- Witness of `GenerateChain_walks_table`: the chain trained on
`the quick brown fox the quick dog` with window length 2, three words asked,
the random source always drawing 1. -/
theorem GenerateChain_walks_table_witness :
    1 ≤ 2 ∧ GenerateChain ⟨some [(" ", ["the"]), (" the", ["quick"]), ("brown fox", ["the"]),
      ("fox the", ["quick"]), ("quick brown", ["fox"]), ("the quick", ["brown", "dog"])], 2⟩
      3 "" (fun _ => 1) = some "the quick dog" ∧
    GenerateChain (NewChain 2) 3 "" (fun _ => 1) = some "" := by
  have h := GenerateChain_walks_table (some [(" ", ["the"]), (" the", ["quick"]),
    ("brown fox", ["the"]), ("fox the", ["quick"]), ("quick brown", ["fox"]),
    ("the quick", ["brown", "dog"])]) 2 3 "" (fun _ => 1) (by decide)
  exact ⟨by decide, by decide, h.2⟩

/-- C3: `GenerateChain` stops before `n` words only in a terminal state. For
every chain of window length `N ≥ 1`, every `n` and every outcome `rnd` of the
random choices, with `g1..gm` the words produced and `w` the window after
shifting them into the all empty window: if `m < n`, the successor list
under the key of `w` is empty or absent; and whenever, after `j` of the words
with `j < n`, the list under the key of the window is not empty, a further
word is produced. -/
theorem GenerateChain_stops_at_terminal (m : Option Table) (N : Nat) (n : Int)
    (seed : String) (rnd : Nat → Nat) (hN : 1 ≤ N) :
    ∃ gs w, generateWords ⟨m, (N : Int)⟩ n rnd = some gs ∧
      GenerateChain ⟨m, (N : Int)⟩ n seed rnd = some (Join gs " ") ∧
      shiftAll (List.replicate N "") gs = some w ∧
      ((gs.length : Int) < n → mapIndex m w.String = []) ∧
      ∀ j wj, j ≤ gs.length → (j : Int) < n →
        shiftAll (List.replicate N "") (gs.take j) = some wj →
        mapIndex m wj.String ≠ [] → j < gs.length := by
  have hp : 1 ≤ (List.replicate N "").length := by simpa using hN
  obtain ⟨gs, w, h1, h2, h3, h4, h5⟩ :=
    genLoop_spec ⟨m, (N : Int)⟩ rnd n.toNat 0 (List.replicate N "") [] hp
  have hw : generateWords ⟨m, (N : Int)⟩ n rnd = some gs := by
    simp only [generateWords, makePrefix_natCast, h1, List.nil_append]
  have hg : GenerateChain ⟨m, (N : Int)⟩ n seed rnd = some (Join gs " ") := by
    simp only [GenerateChain, hw, Option.map_some']
  have hstop : (gs.length : Int) < n → mapIndex m w.String = [] :=
    fun hlt => h5 (by omega)
  refine ⟨gs, w, hw, hg, h4, hstop, ?_⟩
  intro j wj hj hjn hs hne
  rcases Nat.lt_or_ge j gs.length with hlt | hge
  · exact hlt
  · have hjeq : j = gs.length := by omega
    subst hjeq
    rw [List.take_length, h4] at hs
    cases hs
    exact absurd (hstop hjn) hne

/-- Witness of `GenerateChain_stops_at_terminal`: the chain trained on
`the quick brown fox the quick dog` with window length 2, ten words asked,
the random source always drawing 1: three words come out and nothing is
stored under the key `quick dog`. -/
theorem GenerateChain_stops_at_terminal_witness :
    1 ≤ 2 ∧ ∃ (gs : List String) (w : Prefix), generateWords ⟨some [(" ", ["the"]), (" the", ["quick"]),
        ("brown fox", ["the"]), ("fox the", ["quick"]), ("quick brown", ["fox"]),
        ("the quick", ["brown", "dog"])], 2⟩ 10 (fun _ => 1) = some gs ∧
      gs = ["the", "quick", "dog"] ∧ w = ["quick", "dog"] ∧
      mapIndex (some [(" ", ["the"]), (" the", ["quick"]),
        ("brown fox", ["the"]), ("fox the", ["quick"]), ("quick brown", ["fox"]),
        ("the quick", ["brown", "dog"])]) w.String = [] := by
  refine ⟨by decide, ?_⟩
  obtain ⟨gs, w, h1, _, h3, h4, _⟩ := GenerateChain_stops_at_terminal
    (some [(" ", ["the"]), (" the", ["quick"]), ("brown fox", ["the"]),
      ("fox the", ["quick"]), ("quick brown", ["fox"]), ("the quick", ["brown", "dog"])])
    2 10 "" (fun _ => 1) (by decide)
  have hgs : generateWords ⟨some [(" ", ["the"]), (" the", ["quick"]),
      ("brown fox", ["the"]), ("fox the", ["quick"]), ("quick brown", ["fox"]),
      ("the quick", ["brown", "dog"])], 2⟩ 10 (fun _ => 1) =
      some ["the", "quick", "dog"] := by decide
  have hEq : gs = ["the", "quick", "dog"] := Option.some.inj (h1.symm.trans hgs)
  subst hEq
  have hw : w = ["quick", "dog"] := by
    have h5 : shiftAll (List.replicate 2 "") ["the", "quick", "dog"] =
        some ["quick", "dog"] := by decide
    rw [h5] at h3
    exact (Option.some.inj h3).symm
  exact ⟨_, w, h1, rfl, hw, h4 (by decide)⟩

/-! ## Snapshots -/

theorem decodeStrings_encodeStrings (v : List String) :
    decodeStrings (encodeStrings v) = v := by
  simp only [encodeStrings, decodeStrings, List.map_map]
  have h : decodeString ∘ JSON.string = id := by
    funext s
    rfl
  rw [h, List.map_id]

/-- Decoding the encoding of a table stores its entries, in their order, into
the map that is there. -/
theorem decodeMap_encodeMap (m : Option Table) (S : Table) :
    decodeMap m (encodeMap (some S)) =
      some (S.foldl (fun t kv => t.set kv.1 kv.2) (m.getD [])) := by
  simp only [encodeMap, decodeMap, List.foldl_map, decodeStrings_encodeStrings]

theorem Decode_encodeChain (S : Table) (n : Int) (c : Chain) :
    Decode (encodeChain ⟨some S, n⟩) c =
      ⟨some (S.foldl (fun t kv => t.set kv.1 kv.2) (c.Chain.getD [])), c.prefixLen⟩ := by
  have h : isChainField "Chain" = true := by decide
  simp only [encodeChain, Decode, List.foldl_cons, List.foldl_nil, h, if_true,
    decodeMap_encodeMap]

/-- Storing the entries of a well formed table `S` into a table `P`: the keys
of `S` get the lists of `S`, every other key keeps what `P` has. -/
theorem Table.get_foldl_set (S P : Table) (k : String) (hS : S.WF) :
    (S.foldl (fun t kv => t.set kv.1 kv.2) P).get k =
      match S.get k with
      | some v => some v
      | none => P.get k := by
  induction S generalizing P with
  | nil => simp [Table.get]
  | cons e rest ih =>
    obtain ⟨ke, ve⟩ := e
    obtain ⟨hhead, hrest⟩ := (Table.WF_cons ke ve rest).mp hS
    simp only [List.foldl_cons, ih _ hrest, Table.get_set, Table.get]
    by_cases hk : k = ke
    · subst hk
      have hnone : Table.get rest k = none := by
        apply Table.get_eq_none
        intro hmem
        have h1 := hhead k hmem
        rw [keyLt_irrefl] at h1
        exact Bool.noConfusion h1
      simp [hnone]
    · simp [hk]

/-- C4 (amended): a load merges the snapshot into the table. For every chain
with prior map `P` and every file that holds the snapshot of a table `S`,
after `ReadState` every key of `S` has the list of `S`, and every key that
`S` does not have keeps what `P` held under it; the table is `S` when `P` was
empty or nil. -/
theorem ReadState_merges_snapshot (fs : FS) (fileName : String) (P : Option Table)
    (N n : Int) (S : Table) (hS : S.WF)
    (hfile : fs fileName = some (File.gzip (some (encodeChain ⟨some S, n⟩)))) :
    ∃ tbl', ReadState fs fileName ⟨P, N⟩ = ⟨some tbl', N⟩ ∧
      (∀ K v, S.get K = some v → tbl'.get K = some v) ∧
      (∀ K, S.get K = none → tbl'.get K = (P.getD []).get K) ∧
      (P.getD [] = [] → tbl' = S) := by
  refine ⟨S.foldl (fun t kv => t.set kv.1 kv.2) (P.getD []), ?_, ?_, ?_, ?_⟩
  · simp only [ReadState, hfile, Decode_encodeChain]
  · intro K v hK
    rw [Table.get_foldl_set S _ K hS, hK]
  · intro K hK
    rw [Table.get_foldl_set S _ K hS, hK]
  · intro hP
    rw [hP]
    have h := Table.foldl_set_append [] S (by simpa using hS)
    simpa using h

/-- Witness of `ReadState_merges_snapshot`: the snapshot of `"b" ↦ ["y"]`
loaded into a chain that holds `"a" ↦ ["x"]`. -/
theorem ReadState_merges_snapshot_witness :
    Table.WF [("b", ["y"])] ∧ ∃ tbl', ReadState
        (fun _ => some (File.gzip (some (encodeChain ⟨some [("b", ["y"])], 2⟩))))
        "state" ⟨some [("a", ["x"])], 2⟩ = ⟨some tbl', 2⟩ ∧
      (∀ K v, Table.get [("b", ["y"])] K = some v → tbl'.get K = some v) ∧
      (∀ K, Table.get [("b", ["y"])] K = none →
        tbl'.get K = ((some [("a", ["x"])] : Option Table).getD []).get K) ∧
      (((some [("a", ["x"])] : Option Table).getD []) = [] → tbl' = [("b", ["y"])]) :=
  ⟨by decide, ReadState_merges_snapshot
    (fun _ => some (File.gzip (some (encodeChain ⟨some [("b", ["y"])], 2⟩))))
    "state" (some [("a", ["x"])]) 2 2 [("b", ["y"])] (by decide) rfl⟩

/-- C4 (as stated, refuted): the file holds the snapshot of the table
`"b" ↦ ["y"]`, the chain holds `"a" ↦ ["x"]`; after `ReadState` the entry
under `"a"` is still there, so the table is not the table of the snapshot. -/
theorem ReadState_keeps_prior_entries :
    isSnapshot (encodeChain ⟨some [("b", ["y"])], 2⟩) = true ∧
    (ReadState (fun _ => some (File.gzip (some (encodeChain ⟨some [("b", ["y"])], 2⟩))))
      "state" ⟨some [("a", ["x"])], 2⟩).Chain = some [("a", ["x"]), ("b", ["y"])] ∧
    (ReadState (fun _ => some (File.gzip (some (encodeChain ⟨some [("b", ["y"])], 2⟩))))
      "state" ⟨some [("a", ["x"])], 2⟩).Chain ≠ some [("b", ["y"])] := by
  decide

/-- Whatever the window, training on tokens that completes leaves an allocated
map, the window length as it was, and well formed entries well formed. -/
theorem addTokens_some (ws : List String) (p : Prefix) (tbl : Table) (n : Int) (c' : Chain)
    (h : addTokens ws p ⟨some tbl, n⟩ = some c') :
    ∃ tbl', c' = ⟨some tbl', n⟩ ∧ (tbl.WF → tbl'.WF) := by
  induction ws generalizing p tbl with
  | nil =>
    simp only [addTokens, Option.some.injEq] at h
    exact ⟨tbl, h.symm, id⟩
  | cons s ws ih =>
    simp only [addTokens, mapAssign, mapIndex] at h
    cases hs : p.Shift s with
    | none => simp [hs] at h
    | some p' =>
      simp only [hs] at h
      obtain ⟨tbl', h1, h2⟩ := ih p' _ h
      exact ⟨tbl', h1, fun hwf => h2 (Table.WF_set tbl _ _ hwf)⟩

theorem AddChain_some (tbl : Table) (n : Int) (input : String) (c' : Chain) (k : Nat)
    (h : AddChain ⟨some tbl, n⟩ input = some (c', k)) :
    ∃ tbl', c' = ⟨some tbl', n⟩ ∧ (tbl.WF → tbl'.WF) := by
  have hfuel : input.data.length < input.length + 1 :=
    Nat.lt_succ_self input.data.length
  simp only [AddChain] at h
  cases hp : makePrefix n with
  | none => simp [hp] at h
  | some p =>
    simp only [hp, addLoop_eq_addTokens (input.length + 1) input.data _ _ hfuel] at h
    cases ha : addTokens (scanAll (input.length + 1) input.data) p ⟨some tbl, n⟩ with
    | none => simp [ha] at h
    | some c2 =>
      simp only [ha, Option.some.injEq, Prod.mk.injEq] at h
      rw [← h.1]
      exact addTokens_some _ p tbl n c2 ha

/-- A chain trained from well formed entries has an allocated map of well
formed entries and its window length. -/
theorem trainAll_some (texts : List String) (tbl : Table) (n : Int) (c : Chain)
    (hwf : tbl.WF) (h : trainAll ⟨some tbl, n⟩ texts = some c) :
    ∃ tbl', c = ⟨some tbl', n⟩ ∧ tbl'.WF := by
  induction texts generalizing tbl with
  | nil =>
    simp only [trainAll, Option.some.injEq] at h
    exact ⟨tbl, h.symm, hwf⟩
  | cons t ts ih =>
    simp only [trainAll] at h
    cases ha : AddChain ⟨some tbl, n⟩ t with
    | none => simp [ha] at h
    | some res =>
      obtain ⟨c1, k⟩ := res
      simp only [ha] at h
      obtain ⟨tbl1, h1, h2⟩ := AddChain_some tbl n t c1 k ha
      subst h1
      exact ih tbl1 (h2 hwf) h

/-- C5: round trip. For every chain `c` obtained by training a fresh chain of
window length `N` on a sequence of texts, `WriteState(path)`, with the file
created and written, returns no error, and `ReadState(path)` on a fresh chain
of window length `N` gives `c` back: the same keys, and under each key the
same list in the same order. The file written depends on the table only, and
a reader keeps its own window length. -/
theorem WriteState_ReadState_roundtrip (N : Int) (texts : List String) (c : Chain)
    (fs : FS) (path : String) (htrain : trainAll (NewChain N) texts = some c) :
    (WriteState fs path c Disk.ok).1 = false ∧
      ReadState (WriteState fs path c Disk.ok).2 path (NewChain N) = c ∧
      (∀ K, mapIndex (ReadState (WriteState fs path c Disk.ok).2 path (NewChain N)).Chain K =
        mapIndex c.Chain K) ∧
      (∀ N2, (WriteState fs path ⟨c.Chain, N2⟩ Disk.ok).2 =
        (WriteState fs path c Disk.ok).2) ∧
      (∀ N2, ReadState (WriteState fs path c Disk.ok).2 path (NewChain N2) =
        ⟨c.Chain, N2⟩) := by
  obtain ⟨tbl, hc, hwf⟩ := trainAll_some texts [] N c (by decide) htrain
  subst hc
  have hread : ∀ N2, ReadState (WriteState fs path ⟨some tbl, N⟩ Disk.ok).2 path
      (NewChain N2) = ⟨some tbl, N2⟩ := by
    intro N2
    have h := Table.foldl_set_append [] tbl (by simpa using hwf)
    simp only [List.nil_append] at h
    simp only [ReadState, WriteState, Function.update_same, Decode_encodeChain, NewChain,
      Option.getD_some, h]
  refine ⟨rfl, hread N, ?_, fun _ => rfl, hread⟩
  intro K
  rw [hread N]

/-- Witness of `WriteState_ReadState_roundtrip`: window length 1, the texts
`a b a` and `b c`, no file before. -/
theorem WriteState_ReadState_roundtrip_witness :
    trainAll (NewChain 1) ["a b a", "b c"] =
        some ⟨some [("", ["a", "b"]), ("a", ["b"]), ("b", ["a", "c"])], 1⟩ ∧
      ReadState (WriteState (fun _ => none) "state"
        ⟨some [("", ["a", "b"]), ("a", ["b"]), ("b", ["a", "c"])], 1⟩ Disk.ok).2 "state"
        (NewChain 1) = ⟨some [("", ["a", "b"]), ("a", ["b"]), ("b", ["a", "c"])], 1⟩ :=
  ⟨by decide,
    (WriteState_ReadState_roundtrip 1 ["a b a", "b c"]
      ⟨some [("", ["a", "b"]), ("a", ["b"]), ("b", ["a", "c"])], 1⟩ (fun _ => none) "state"
      (by decide)).2.1⟩

theorem Decode_selectsNoField (j : JSON) (c : Chain) (h : selectsNoField j = true) :
    Decode j c = c := by
  cases j with
  | object members =>
    simp only [selectsNoField, List.all_eq_true, Bool.not_eq_true'] at h
    simp only [Decode]
    induction members generalizing c with
    | nil => rfl
    | cons e rest ih =>
      have he : isChainField e.1 = false := h e (by simp)
      simp only [List.foldl_cons, he, Bool.false_eq_true, if_false]
      exact ih c (fun x hx => h x (by simp [hx]))
  | _ => rfl

/-- C9 (amended): a load that finds nothing to decode changes nothing. For
every chain and every file name, if the file cannot be opened, or is not a
gzip stream, or holds no complete JSON value, or holds a JSON value that is
not an object or is an object without a member for the field `Chain`, then
`ReadState` returns the chain as it was. -/
theorem ReadState_failed_load_unchanged (fs : FS) (fileName : String) (c : Chain)
    (h : fs fileName = none ∨ fs fileName = some File.notGzip ∨
      fs fileName = some (File.gzip none) ∨
      ∃ j, fs fileName = some (File.gzip (some j)) ∧ selectsNoField j = true) :
    ReadState fs fileName c = c := by
  rcases h with h | h | h | ⟨j, h, hj⟩
  · simp only [ReadState, h]
  · simp only [ReadState, h]
  · simp only [ReadState, h]
  · simp only [ReadState, h, Decode_selectsNoField j c hj]

/-- Witness of `ReadState_failed_load_unchanged`: a gzip stream of the JSON
text `["the quick"]`, an array where an object is due. -/
theorem ReadState_failed_load_unchanged_witness :
    selectsNoField (JSON.array [JSON.string "the quick"]) = true ∧
    ReadState (fun _ => some (File.gzip (some (JSON.array [JSON.string "the quick"]))))
      "state" ⟨some [("the quick", ["brown", "dog"])], 2⟩ =
      ⟨some [("the quick", ["brown", "dog"])], 2⟩ :=
  ⟨rfl, ReadState_failed_load_unchanged
    (fun _ => some (File.gzip (some (JSON.array [JSON.string "the quick"])))) "state"
    ⟨some [("the quick", ["brown", "dog"])], 2⟩
    (Or.inr (Or.inr (Or.inr ⟨JSON.array [JSON.string "the quick"], rfl, rfl⟩)))⟩

/-- C9 (as stated, refuted): the file is a gzip stream of the JSON text
`{"Chain": {"the quick": "brown"}}`, which does not encode a table (a
string stands where a list is due). `ReadState` returns, and the list under
`the quick` is lost: the table is not the table before the call. -/
theorem ReadState_ill_typed_snapshot_changes_table :
    isSnapshot (JSON.object [("Chain", JSON.object [("the quick", JSON.string "brown")])])
      = false ∧
    (ReadState (fun _ => some (File.gzip (some
        (JSON.object [("Chain", JSON.object [("the quick", JSON.string "brown")])]))))
      "state" ⟨some [("the quick", ["brown", "dog"])], 2⟩).Chain =
      some [("the quick", [])] ∧
    (ReadState (fun _ => some (File.gzip (some
        (JSON.object [("Chain", JSON.object [("the quick", JSON.string "brown")])]))))
      "state" ⟨some [("the quick", ["brown", "dog"])], 2⟩).Chain ≠
      some [("the quick", ["brown", "dog"])] := by
  decide

/-! ## Lock discipline -/

theorem guarded_flatMap_AddChain (ws : List String) (held : Bool) :
    guarded held (ws.flatMap
      (fun _ => [Event.lock, Event.mapRead, Event.mapWrite, Event.unlock])) = true := by
  induction ws generalizing held with
  | nil => cases held <;> rfl
  | cons w ws ih =>
    simp only [List.flatMap_cons, List.cons_append, List.nil_append, guarded,
      Bool.true_and]
    exact ih false

theorem guarded_replicate_mapRead (k : Nat) :
    guarded true (List.replicate k Event.mapRead ++ [Event.unlock]) = true := by
  induction k with
  | zero => rfl
  | succ k ih =>
    simp only [List.replicate, List.cons_append, guarded, Bool.true_and]
    exact ih

/-- C10, the failing case and the rest. `AddChain`, `GenerateChain`,
`ReadState` and `WriteState` touch the map only with the mutex held; the
goroutine of `RunStateSaveTicker` does not: after a tick whose `WriteState`
succeeds it reads `len(c.Chain)` when the mutex has been released. -/
theorem RunStateSaveTicker_reads_len_unlocked :
    (∀ input, guarded false (AddChain_events input) = true) ∧
    (∀ passes, guarded false (GenerateChain_events passes) = true) ∧
    (∀ fs fileName, guarded false (ReadState_events fs fileName) = true) ∧
    (∀ d, guarded false (WriteState_events d) = true) ∧
    RunStateSaveTicker_events [Disk.ok] =
      [Event.lock, Event.mapRead, Event.unlock, Event.mapLen] ∧
    guarded false (RunStateSaveTicker_events [Disk.ok]) = false := by
  refine ⟨fun input => guarded_flatMap_AddChain _ _, ?_, ?_, ?_, rfl, rfl⟩
  · intro passes
    simp only [GenerateChain_events, guarded]
    exact guarded_replicate_mapRead passes
  · intro fs fileName
    simp only [ReadState_events]
    cases fs fileName with
    | none => rfl
    | some f =>
      cases f with
      | notGzip => rfl
      | gzip first => cases first <;> rfl
  · intro d
    cases d <;> rfl

end Markov
